import Mathlib

/-!
Shallow embedding of the core of the claude-search repository
(src/search.js): record loading, content-block handling, fenced code-block
extraction, reasoning-snippet windowing, project-slug decoding, the
filesystem-probing path reconstruction, per-message match construction and
the final ranking of pooled matches.  JavaScript strings are modelled as
Lean strings over their character sequences; the injected predicate
standing for the on-disk existence check makes the path probe pure, and
the JSON parser is an abstract parameter returning an optional record.
-/

namespace ClaudeSearch

/-! ## String helpers (character-level models of the JS string operations) -/

/-- Model of the ASCII case fold performed by toLowerCase in the source. -/
def strLower (s : String) : String :=
  String.mk (s.data.map Char.toLower)

/-- Model of the substring test used by the source (String.prototype.includes):
the needle occurs as a contiguous run of characters inside the haystack. -/
def strIncludes (hay needle : String) : Bool :=
  decide (needle.data <:+: hay.data)

/-- Model of trimEnd: remove trailing whitespace characters. -/
def strTrimEnd (s : String) : String :=
  String.mk (s.data.reverse.dropWhile Char.isWhitespace).reverse

/-- Model of slice(n): drop the first n characters. -/
def strDrop (s : String) (n : Nat) : String :=
  String.mk (s.data.drop n)

/-- Character count of a string, the model of the JS length property. -/
def strLen (s : String) : Nat :=
  s.data.length

/-- Model of startsWith: the second string is a leading run of the first. -/
def strStartsWith (s pre : String) : Bool :=
  decide (pre.data <+: s.data)

/-- Model of trim: remove leading and trailing whitespace characters. -/
def strTrim (s : String) : String :=
  String.mk ((s.data.dropWhile Char.isWhitespace).reverse.dropWhile Char.isWhitespace).reverse

/-- Character-level split on a separator character, the model of the JS
split with a one-character separator: always at least one (possibly empty)
piece, one more piece per separator occurrence. -/
def splitChar (sep : Char) : List Char → List (List Char)
  | [] => [[]]
  | c :: rest =>
    let r := splitChar sep rest
    if c = sep then [] :: r
    else
      match r with
      | g :: gs => (c :: g) :: gs
      | [] => [[c]]

/-- Split a string on a separator character. -/
def strSplitChar (s : String) (sep : Char) : List String :=
  (splitChar sep s.data).map String.mk

/-- Model of join with a separator. -/
def strIntercalate (sep : String) (xs : List String) : String :=
  String.mk (List.intercalate sep.data (xs.map String.data))

/-- Model of the global one-character replacement the source applies to the
home path: every slash becomes a hyphen. -/
def slugEncode (s : String) : String :=
  String.mk (s.data.map (fun c => if c = '/' then '-' else c))

/-! ## Data model (section 3 of the spec, shapes read off search.js) -/

/-- One structured unit inside message content: a text block, a thinking
block (its text, with the empty string standing for an absent field), or an
opaque other block (tool use and the like). -/
inductive ContentBlock where
  | text (s : String)
  | thinking (s : String)
  | other
deriving DecidableEq, Repr

/-- The content of a message: a plain string, an ordered sequence of blocks,
or anything else (undefined, null, a non-array object). -/
inductive Content where
  | str (s : String)
  | blocks (bs : List ContentBlock)
  | null
deriving DecidableEq, Repr

/-- The message field of a user or assistant record. -/
structure MessageBody where
  role : String
  content : Content
deriving DecidableEq, Repr

/-- One parsed JSON line of a session file.  Timestamps are modelled by
their instant on the time axis (comparison of parsed dates is numeric). -/
structure SessionRecord where
  type : String
  message : Option MessageBody
  timestamp : Option Nat
deriving DecidableEq, Repr

/-- A fenced code block: language tag and body. -/
structure CodeBlock where
  lang : String
  code : String
deriving DecidableEq, Repr

/-- The window extracted from a reasoning block around a query hit. -/
structure ReasoningSnippet where
  lines : List String
  hitLine : Nat
  trimmedTop : Bool
  trimmedBottom : Bool
deriving DecidableEq, Repr

/-! ## extractText (search.js lines 12-20) -/

/-- The text carried by a text-tagged block, none for any other block. -/
def blockText : ContentBlock → Option String
  | .text s => some s
  | _ => none

/-- extractText from the source: a plain string is itself; an array keeps
the text-tagged blocks, joins their texts with newlines and trims; anything
else gives the empty string. -/
def extractText : Content → String
  | .str s => s
  | .blocks bs => strTrim (strIntercalate "\n" (bs.filterMap blockText))
  | .null => ""

/-! ## extractCodeBlocks (search.js lines 26-35)

The fence pattern of the source anchored at a position: three backticks, a
maximal run of word characters as the language tag, a newline, then the
shortest body followed by three closing backticks.  The scan walks the text
left to right, emitting a block at the first position where the whole
pattern matches and resuming after the closing fence, exactly as the global
regex loop of the source does. -/

/-- A word character of the fence pattern: ASCII letter, digit or underscore. -/
def isWordChar (c : Char) : Bool :=
  c.isAlphanum || c = '_'

/-- Three backticks stand at the head of the character list. -/
def fenceHead (cs : List Char) : Bool :=
  decide (['`', '`', '`'] <+: cs)

/-- Split at the first occurrence of three backticks: the characters before
it and the characters after it.  This is the lazy body match of the fence
pattern. -/
def findClose : List Char → Option (List Char × List Char)
  | [] => none
  | c :: rest =>
    if fenceHead (c :: rest) then some ([], rest.drop 2)
    else (findClose rest).map (fun p => (c :: p.1, p.2))

/-- Try to match the whole fence pattern anchored at the start of cs:
returns the language-tag characters, the body characters and the characters
after the closing fence. -/
def tryMatchAt (cs : List Char) : Option (List Char × List Char × List Char) :=
  if fenceHead cs then
    let rest := cs.drop 3
    let tail := rest.dropWhile isWordChar
    if tail.head? = some '\n' then
      (findClose (tail.drop 1)).map (fun p => (rest.takeWhile isWordChar, p.1, p.2))
    else none
  else none

/-- Finalisation of one regex match into a block, as the push of the source
does it: an empty tag defaults to a lang of text, the body is trimmed at
its end. -/
def mkBlock (tag body : List Char) : CodeBlock :=
  { lang := if tag = [] then "text" else String.mk tag
    code := strTrimEnd (String.mk body) }

theorem findClose_spec {cs body after : List Char}
    (h : findClose cs = some (body, after)) :
    cs.length = body.length + 3 + after.length ∧ after <:+ cs := by
  induction cs generalizing body after with
  | nil => simp [findClose] at h
  | cons c rest ih =>
    rw [findClose] at h
    by_cases hf : fenceHead (c :: rest) = true
    · rw [if_pos hf] at h
      obtain ⟨t, ht⟩ := of_decide_eq_true hf
      simp only [List.cons_append, List.nil_append, List.cons.injEq] at ht
      obtain ⟨hc, hr⟩ := ht
      subst hc
      subst hr
      simp only [List.drop_succ_cons, List.drop_zero, Option.some.injEq,
        Prod.mk.injEq] at h
      obtain ⟨hb, ha⟩ := h
      subst hb
      subst ha
      constructor
      · simp only [List.length_cons, List.length_nil, List.drop_succ_cons,
          List.drop_zero]
        omega
      · exact ⟨['`', '`', '`'], rfl⟩
    · rw [if_neg hf] at h
      cases hr : findClose rest with
      | none => rw [hr] at h; simp at h
      | some p =>
        obtain ⟨p1, p2⟩ := p
        rw [hr] at h
        simp only [Option.map_some', Option.some.injEq, Prod.mk.injEq] at h
        obtain ⟨hb, ha⟩ := h
        obtain ⟨hlen, hsuf⟩ := ih hr
        constructor
        · subst hb
          subst ha
          simp only [List.length_cons]
          omega
        · subst ha
          exact hsuf.trans (List.suffix_cons c rest)

theorem tryMatchAt_spec {cs tag body after : List Char}
    (h : tryMatchAt cs = some (tag, body, after)) :
    after.length + 7 ≤ cs.length ∧ after <:+ cs := by
  rw [tryMatchAt] at h
  by_cases hf : fenceHead cs = true
  · rw [if_pos hf] at h
    simp only at h
    set rest := cs.drop 3 with hrest
    set tail := rest.dropWhile isWordChar with htail
    by_cases hh : tail.head? = some '\n'
    · rw [if_pos hh] at h
      cases hc : findClose (tail.drop 1) with
      | none => rw [hc] at h; simp at h
      | some p =>
        obtain ⟨p1, p2⟩ := p
        rw [hc] at h
        simp only [Option.map_some', Option.some.injEq, Prod.mk.injEq] at h
        obtain ⟨-, -, hap⟩ := h
        obtain ⟨hlen, hsuf⟩ := findClose_spec hc
        subst hap
        obtain ⟨t, ht⟩ := of_decide_eq_true hf
        have hcs3 : 3 ≤ cs.length := by
          rw [← ht]; simp
        have htl : tail.length ≤ rest.length :=
          (List.dropWhile_suffix isWordChar).sublist.length_le
        have hrl : rest.length = cs.length - 3 := by rw [hrest]; simp
        have htl1 : (tail.drop 1).length = tail.length - 1 := by simp
        have htne : tail ≠ [] := by
          intro hn; rw [hn] at hh; simp at hh
        have htpos : 1 ≤ tail.length := List.length_pos.mpr htne
        constructor
        · omega
        · have h1 : p2 <:+ tail.drop 1 := hsuf
          have h2 : tail.drop 1 <:+ tail := List.drop_suffix 1 tail
          have h3 : tail <:+ rest := List.dropWhile_suffix isWordChar
          have h4 : rest <:+ cs := List.drop_suffix 3 cs
          exact ((h1.trans h2).trans h3).trans h4
    · rw [if_neg hh] at h; simp at h
  · rw [if_neg hf] at h; simp at h

/-- The scan loop of extractCodeBlocks: at each position try the whole
fence pattern; on a match push the finalised block and resume after the
closing fence, otherwise advance one character.  The scan consumes at least
one character per step, so the first argument, the length of the text,
bounds the number of steps; recursing on it keeps the function structurally
recursive. -/
def scanFuel : Nat → List Char → List CodeBlock
  | 0, _ => []
  | fuel + 1, cs =>
    match tryMatchAt cs with
    | some (tag, body, after) => mkBlock tag body :: scanFuel fuel after
    | none =>
      match cs with
      | [] => []
      | _ :: rest => scanFuel fuel rest

/-- The scan of the whole text, with enough fuel for every step. -/
def scanCodeBlocks (cs : List Char) : List CodeBlock :=
  scanFuel cs.length cs

/-- extractCodeBlocks from the source: scan the searchable text. -/
def extractCodeBlocks (content : Content) : List CodeBlock :=
  scanCodeBlocks (extractText content).data

/-- The fuel argument is inert as long as it bounds the text length: both
runs make the same steps. -/
theorem scanFuel_congr :
    ∀ fuel fuel' cs, cs.length ≤ fuel → cs.length ≤ fuel' →
      scanFuel fuel cs = scanFuel fuel' cs := by
  intro fuel
  induction fuel with
  | zero =>
    intro fuel' cs h h'
    have hnil : cs = [] := List.eq_nil_of_length_eq_zero (Nat.le_zero.mp h)
    subst hnil
    cases fuel' <;> rfl
  | succ fuel ih =>
    intro fuel' cs h h'
    cases fuel' with
    | zero =>
      have hnil : cs = [] := List.eq_nil_of_length_eq_zero (Nat.le_zero.mp h')
      subst hnil
      rfl
    | succ fuel' =>
      cases htm : tryMatchAt cs with
      | some t =>
        obtain ⟨tag, body, after⟩ := t
        have hlen := (tryMatchAt_spec htm).1
        show scanFuel (fuel + 1) cs = scanFuel (fuel' + 1) cs
        simp only [scanFuel, htm]
        rw [ih fuel' after (by omega) (by omega)]
      | none =>
        cases cs with
        | nil => rfl
        | cons c rest =>
          show scanFuel (fuel + 1) (c :: rest) = scanFuel (fuel' + 1) (c :: rest)
          simp only [scanFuel, htm]
          exact ih fuel' rest (by simpa using h) (by simpa using h')

/-- The same scan annotated with the absolute position of each match, used
to state that blocks come in fence order. -/
def scanPosFuel : Nat → Nat → List Char → List (Nat × List Char × List Char)
  | 0, _, _ => []
  | fuel + 1, p, cs =>
    match tryMatchAt cs with
    | some (tag, body, after) =>
      (p, tag, body) :: scanPosFuel fuel (p + (cs.length - after.length)) after
    | none =>
      match cs with
      | [] => []
      | _ :: rest => scanPosFuel fuel (p + 1) rest

/-- The positioned scan of the whole text. -/
def scanCodeBlocksPos (p : Nat) (cs : List Char) :
    List (Nat × List Char × List Char) :=
  scanPosFuel cs.length p cs

/-! ## projectName (search.js lines 41-46)

The home directory is an ambient input of the source (homedir()); here it
is an explicit first argument. -/

/-- The first path segment of the file path relative to the sessions root:
the project directory slug. -/
def slugDir (sessionsDir filePath : String) : String :=
  (strSplitChar (strDrop filePath (strLen sessionsDir + 1)) '/').headD ""

/-- The home directory slug-encoded with a trailing separator, as the
source builds it from homedir(). -/
def homeSlugPre (home : String) : String :=
  "-" ++ slugEncode (strDrop home 1) ++ "-"

/-- projectName from the source: take the first path segment of the file
path relative to the sessions root; if it starts with the slug-encoded home
directory followed by a separator, strip that, else return it unchanged. -/
def projectName (home sessionsDir filePath : String) : String :=
  let dir := slugDir sessionsDir filePath
  if strStartsWith dir (homeSlugPre home) then
    strDrop dir (strLen (homeSlugPre home))
  else dir

/-! ## findExistingPath (search.js lines 97-115)

Paths are lists of segments; the existence check access is the injected
predicate fs.  The source loop over take = 1 .. parts.length becomes the
function findExistingPathFrom, whose counter tried stands for take - 1. -/

/-- Consecutive parts grouped into one segment are joined with hyphens. -/
def joinHyphen (parts : List String) : String :=
  strIntercalate "-" parts

mutual

/-- findExistingPath from the source: no parts left means the base itself
exists by construction; otherwise run the grouping loop from the shortest
first segment. -/
def findExistingPath (fs : List String → Bool) (base parts : List String) :
    Option (List String) :=
  match parts with
  | [] => some base
  | p :: ps => findExistingPathFrom fs base (p :: ps) 0
termination_by (parts.length, parts.length + 2)

/-- The loop body: with tried parts already rejected, group the next
tried + 1 parts as one candidate segment; when the candidate directory
exists, recurse into the remaining parts and keep a full success, else move
on to the next longer grouping; when the groupings are exhausted, fail. -/
def findExistingPathFrom (fs : List String → Bool) (base parts : List String)
    (tried : Nat) : Option (List String) :=
  if h : tried < parts.length then
    let candidate := base ++ [joinHyphen (parts.take (tried + 1))]
    if fs candidate then
      match findExistingPath fs candidate (parts.drop (tried + 1)) with
      | some found => some found
      | none => findExistingPathFrom fs base parts (tried + 1)
    else findExistingPathFrom fs base parts (tried + 1)
  else none
termination_by (parts.length, parts.length + 1 - tried)

end

/-! ## parse-free spec of the probe, used to settle claim C1 -/

mutual

/-- Every way to group the parts into consecutive nonempty runs, in the
order the depth-first probe visits them: shortest first segment first, then
recursively the groupings of the remainder. -/
def allGroupings : List String → List (List (List String))
  | [] => [[]]
  | p :: ps => allGroupingsFrom (p :: ps) 0
termination_by parts => (parts.length, parts.length + 2)

/-- The groupings whose first segment takes at least tried + 1 parts. -/
def allGroupingsFrom (parts : List String) (tried : Nat) :
    List (List (List String)) :=
  if h : tried < parts.length then
    (allGroupings (parts.drop (tried + 1))).map
        (fun g => parts.take (tried + 1) :: g)
      ++ allGroupingsFrom parts (tried + 1)
  else []
termination_by (parts.length, parts.length + 1 - tried)

end

/-- A grouping is viable under fs from base when every prefix of its
segment path exists on disk. -/
def groupingViable (fs : List String → Bool) : List String → List (List String) → Bool
  | _, [] => true
  | base, seg :: rest =>
    fs (base ++ [joinHyphen seg]) && groupingViable fs (base ++ [joinHyphen seg]) rest

/-- The full path a grouping stands for. -/
def groupingPath (base : List String) (g : List (List String)) : List String :=
  base ++ g.map joinHyphen

/-- Declarative reading of the probe: the first viable grouping in the
depth-first, shortest-first enumeration, turned into a path. -/
def findExistingPathSpec (fs : List String → Bool) (base parts : List String) :
    Option (List String) :=
  ((allGroupings parts).find? (groupingViable fs base)).map (groupingPath base)

/-! ## extractReasoningSnippet (search.js lines 180-201) -/

/-- The filter of the source find call: a thinking-tagged block whose
thinking field is truthy, that is carries non-empty text. -/
def isLiveThinking : ContentBlock → Bool
  | .thinking s => s ≠ ""
  | _ => false

/-- The thinking text of a block, none for any other block. -/
def blockThinking : ContentBlock → Option String
  | .thinking s => some s
  | _ => none

/-- The text the source's find call selects: the first thinking block with
non-empty text, for array content only. -/
def firstLiveThinking : Content → Option String
  | .blocks bs => (bs.find? isLiveThinking).bind blockThinking
  | _ => none

/-- The line-level hit test of the snippet extractor: both the line and the
query case-folded, then substring containment. -/
def lineHit (query line : String) : Bool :=
  strIncludes (strLower line) (strLower query)

/-- extractReasoningSnippet from the source: split the selected thinking
text into lines, find the first line containing the lowercased query, and
cut a window of lineContext lines either side, clamped to the bounds,
remembering the in-window hit index and whether either edge was cut. -/
def extractReasoningSnippet (content : Content) (query : String)
    (lineContext : Nat := 3) : Option ReasoningSnippet :=
  match firstLiveThinking content with
  | none => none
  | some t =>
    let lines := strSplitChar t '\n'
    match lines.findIdx? (lineHit query) with
    | none => none
    | some hitIdx =>
      let start := hitIdx - lineContext
      let stop := min (lines.length - 1) (hitIdx + lineContext)
      some { lines := (lines.drop start).take (stop + 1 - start)
             hitLine := hitIdx - start
             trimmedTop := decide (0 < start)
             trimmedBottom := decide (stop < lines.length - 1) }

/-! ## loadMessages (search.js lines 205-221)

The file read is outside the embedding; loadMessages takes the raw text.
JSON.parse is the abstract parameter parse, returning none exactly on the
lines whose parse throws. -/

/-- A record that counts as a conversation message. -/
def isMessage (r : SessionRecord) : Bool :=
  r.type = "user" || r.type = "assistant"

/-- The loop of loadMessages: trim each line, skip blanks, keep the parses
that succeed and drop the failures silently. -/
def loadRecords (parse : String → Option SessionRecord) :
    List String → List SessionRecord
  | [] => []
  | line :: rest =>
    let trimmed := strTrim line
    if trimmed = "" then loadRecords parse rest
    else
      match parse trimmed with
      | some r => r :: loadRecords parse rest
      | none => loadRecords parse rest

/-- The pair loadMessages returns. -/
structure LoadResult where
  records : List SessionRecord
  messages : List SessionRecord
deriving DecidableEq, Repr

/-- loadMessages from the source: split the raw text into lines, run the
tolerant parse loop, and derive the user/assistant subsequence. -/
def loadMessages (parse : String → Option SessionRecord) (raw : String) :
    LoadResult :=
  let records := loadRecords parse (strSplitChar raw '\n')
  { records := records, messages := records.filter isMessage }

/-! ## The per-message match step of search (search.js lines 331-367) -/

/-- The options of search the match step reads. -/
structure SearchOpts where
  context : Nat := 1
  caseSensitive : Bool := false
  codeOnly : Bool := false
  showReasoning : Bool := false
deriving DecidableEq, Repr

/-- One aggregated match, with the per-file identity fields that no claim
touches left out. -/
structure SMatch where
  timestamp : Option Nat
  role : String
  text : String
  codeBlocks : List CodeBlock
  reasoning : Option ReasoningSnippet
  before : List SessionRecord
  after : List SessionRecord
deriving DecidableEq, Repr

/-- The content of a record's message, with the JS optional chaining giving
the non-array value for a record with no message field. -/
def contentOf (r : SessionRecord) : Content :=
  match r.message with
  | some body => body.content
  | none => Content.null

/-- The role a match records: the message role, falling back to the type tag. -/
def roleOf (r : SessionRecord) : String :=
  match r.message with
  | some body => body.role
  | none => r.type

/-- The case fold search applies to both needle and haystack. -/
def foldCase (caseSensitive : Bool) (s : String) : String :=
  if caseSensitive then s else strLower s

/-- The body of the message loop of search at index i: none when the
message does not qualify (text miss, or code-only mode with no hit inside a
code block), else the Match the source pushes, with its context slices and
its optional reasoning snippet. -/
def matchAt (opts : SearchOpts) (query : String) (sessionTs : Option Nat)
    (messages : List SessionRecord) (i : Nat) : Option SMatch :=
  match messages[i]? with
  | none => none
  | some msg =>
    let text := extractText (contentOf msg)
    let needle := foldCase opts.caseSensitive query
    if strIncludes (foldCase opts.caseSensitive text) needle then
      let codeBlocks := extractCodeBlocks (contentOf msg)
      if opts.codeOnly
          && (codeBlocks.filter
                (fun b => strIncludes (foldCase opts.caseSensitive b.code) needle)).isEmpty then
        none
      else
        some { timestamp := msg.timestamp.or sessionTs
               role := roleOf msg
               text := text
               codeBlocks := codeBlocks
               reasoning :=
                 if opts.showReasoning then extractReasoningSnippet (contentOf msg) query
                 else none
               before := (messages.take i).drop (i - opts.context)
               after := (messages.drop (i + 1)).take opts.context }
    else none

/-- The whole message loop of search over one session, in message order. -/
def sessionMatches (opts : SearchOpts) (query : String) (sessionTs : Option Nat)
    (messages : List SessionRecord) : List SMatch :=
  (List.range messages.length).filterMap (matchAt opts query sessionTs messages)

/-! ## Aggregation and ranking (search.js lines 373-381) -/

/-- The sort comparator as the predicate a is ranked no later than b: the
source comparator returns a non-positive number exactly here.  Matches
without a timestamp sort after every timestamped match; two timestamp-less
matches compare equal; timestamped matches are in descending order. -/
def tsLe (a b : Option Nat) : Bool :=
  match a, b with
  | none, none => true
  | none, some _ => false
  | some _, none => true
  | some x, some y => y ≤ x

/-- The stable sort of the pooled matches under the source comparator. -/
def sortMatches (ms : List SMatch) : List SMatch :=
  ms.mergeSort (fun a b => tsLe a.timestamp b.timestamp)

/-- The final aggregation step: the displayed list is the limit-bounded
prefix of the sorted pool, and the pre-truncation total is reported next to
it. -/
def rankMatches (ms : List SMatch) (limit : Nat) : List SMatch × Nat :=
  ((sortMatches ms).take limit, ms.length)

/-! ## Claim C4: tolerant line loading -/

/-- The non-blank lines of the raw text, trimmed, in file order. -/
def nonBlankLines (raw : String) : List String :=
  ((strSplitChar raw '\n').map strTrim).filter (fun l => decide (l ≠ ""))

theorem loadRecords_eq_filterMap (parse : String → Option SessionRecord) :
    ∀ lines : List String,
      loadRecords parse lines
        = ((lines.map strTrim).filter (fun l => decide (l ≠ ""))).filterMap parse := by
  intro lines
  induction lines with
  | nil => rfl
  | cons line rest ih =>
    simp only [loadRecords, List.map_cons, List.filter_cons]
    by_cases h : strTrim line = ""
    · simp [h, ih]
    · cases hp : parse (strTrim line) <;> simp [h, hp, ih]

/-- C4: loadMessages never fails on a malformed line: the records are
exactly the successful parses of the non-blank trimmed lines, in file
order, every failing line is silently absent, and there are at most as many
records as non-blank lines.  (The only fallible step of the source, the
file read, happens before this total function runs.) -/
theorem loadMessages_drops_bad_lines_silently :
    ∀ (parse : String → Option SessionRecord) (raw : String),
      (loadMessages parse raw).records = (nonBlankLines raw).filterMap parse
        ∧ (loadMessages parse raw).records.length ≤ (nonBlankLines raw).length := by
  intro parse raw
  have h : (loadMessages parse raw).records = (nonBlankLines raw).filterMap parse :=
    loadRecords_eq_filterMap parse (strSplitChar raw '\n')
  refine ⟨h, ?_⟩
  rw [h]
  exact List.length_filterMap_le _ _

/-! ## Claim C5: the message subsequence -/

/-- C5: the messages of a load are an order-preserving subsequence of its
records, and membership is exactly the user or assistant type tag. -/
theorem messages_are_tagged_subsequence :
    ∀ (parse : String → Option SessionRecord) (raw : String),
      ((loadMessages parse raw).messages).Sublist (loadMessages parse raw).records
        ∧ (∀ r, r ∈ (loadMessages parse raw).messages ↔
            r ∈ (loadMessages parse raw).records
              ∧ (r.type = "user" ∨ r.type = "assistant")) := by
  intro parse raw
  have hm : (loadMessages parse raw).messages
      = List.filter isMessage (loadMessages parse raw).records := rfl
  constructor
  · rw [hm]
    exact List.filter_sublist _
  · intro r
    rw [hm, List.mem_filter]
    simp [isMessage]

/-! ## Claim C2: project-name decoding -/

/-- C2 as amended: when the slug starts with the encoded home prefix the
prefix is stripped, so that prefix followed by the result reassembles the
slug; when it does not, the slug is returned whole and unchanged, leading
separator included. -/
theorem projectName_strips_home_only :
    ∀ home sessionsDir filePath : String,
      (strStartsWith (slugDir sessionsDir filePath) (homeSlugPre home) = true →
          homeSlugPre home ++ projectName home sessionsDir filePath
            = slugDir sessionsDir filePath)
        ∧ (strStartsWith (slugDir sessionsDir filePath) (homeSlugPre home) = false →
            projectName home sessionsDir filePath = slugDir sessionsDir filePath) := by
  intro home sessionsDir filePath
  constructor
  · intro hpre
    rw [projectName]
    simp only [hpre, if_true]
    have hp : (homeSlugPre home).data <+: (slugDir sessionsDir filePath).data :=
      of_decide_eq_true hpre
    apply String.ext
    show (homeSlugPre home).data ++ (strDrop _ _).data = _
    rw [strDrop, strLen]
    exact List.prefix_iff_eq_append.mp hp
  · intro hpre
    rw [projectName]
    simp [hpre]

/-! ## Claim C3: ranking of the pooled matches -/

theorem tsLe_trans :
    ∀ a b c : Option Nat, tsLe a b = true → tsLe b c = true → tsLe a c = true := by
  intro a b c hab hbc
  cases a <;> cases b <;> cases c <;> simp_all [tsLe] <;> omega

theorem tsLe_total : ∀ a b : Option Nat, tsLe a b || tsLe b a := by
  intro a b
  cases a <;> cases b <;> simp_all [tsLe] <;> omega

/-- C3: the sorted pool is a permutation of the matches in which every
timestamped match precedes every untimestamped one and timestamps descend;
the displayed list is the limit-bounded prefix of that order; and the
reported total is the pre-truncation match count. -/
theorem ranking_descending_and_bounded :
    ∀ (ms : List SMatch) (limit : Nat),
      (sortMatches ms).Perm ms
        ∧ List.Pairwise
            (fun a b =>
              (a.timestamp = none → b.timestamp = none)
                ∧ ∀ x y, a.timestamp = some x → b.timestamp = some y → y ≤ x)
            (sortMatches ms)
        ∧ (rankMatches ms limit).1 <+: sortMatches ms
        ∧ (rankMatches ms limit).1.length ≤ limit
        ∧ (rankMatches ms limit).2 = ms.length := by
  intro ms limit
  refine ⟨List.mergeSort_perm ms _, ?_, List.take_prefix _ _,
    List.length_take_le _ _, rfl⟩
  have hs := @List.sorted_mergeSort SMatch
    (fun a b : SMatch => tsLe a.timestamp b.timestamp)
    (fun a b c => tsLe_trans a.timestamp b.timestamp c.timestamp)
    (fun a b => tsLe_total a.timestamp b.timestamp) ms
  refine hs.imp ?_
  intro a b hle
  constructor
  · intro ha
    cases hb : b.timestamp with
    | none => rfl
    | some y => rw [ha, hb] at hle; simp [tsLe] at hle
  · intro x y hx hy
    rw [hx, hy] at hle
    simpa [tsLe] using hle

/-! ## Claim C9: context slices around a match -/

theorem drop_take_eq_filterMap_range {α : Type} :
    ∀ (l : List α) (n s : Nat),
      (l.drop s).take n = (List.range' s n).filterMap (fun j => l[j]?) := by
  intro l n
  induction n with
  | zero => simp
  | succ n ih =>
    intro s
    rw [List.range'_succ, List.filterMap_cons]
    by_cases hs : s < l.length
    · rw [List.drop_eq_getElem_cons hs, List.take_succ_cons,
        List.getElem?_eq_getElem hs, ih (s + 1)]
    · push_neg at hs
      rw [List.getElem?_eq_none hs, List.drop_eq_nil_of_le hs, List.take_nil,
        ← ih (s + 1), List.drop_eq_nil_of_le (by omega), List.take_nil]

/-- C9: the before slice of a produced match holds exactly the messages at
indices max(0, i - context) through i - 1 and the after slice exactly those
at i + 1 through min(n - 1, i + context), in original order, and their
lengths fall short of the context size only at the edges. -/
theorem match_context_slices :
    ∀ (opts : SearchOpts) (query : String) (sessionTs : Option Nat)
      (messages : List SessionRecord) (i : Nat) (m : SMatch),
      matchAt opts query sessionTs messages i = some m →
      m.before = (List.range' (i - opts.context) (i - (i - opts.context))).filterMap
          (fun j => messages[j]?)
        ∧ m.after = (List.range' (i + 1) opts.context).filterMap
            (fun j => messages[j]?)
        ∧ m.before.length = i - (i - opts.context)
        ∧ m.after.length = min opts.context (messages.length - (i + 1)) := by
  intro opts query sessionTs messages i m h
  unfold matchAt at h
  cases hmi : messages[i]? with
  | none => rw [hmi] at h; simp at h
  | some msg =>
    rw [hmi] at h
    have hi : i < messages.length := by
      by_contra hge
      rw [List.getElem?_eq_none (by omega)] at hmi
      exact Option.noConfusion hmi
    simp only at h
    split at h
    · split at h
      · exact absurd h (by simp)
      · rw [Option.some.injEq] at h
        subst h
        refine ⟨?_, ?_, ?_, ?_⟩
        · show (messages.take i).drop (i - opts.context) = _
          rw [List.drop_take, drop_take_eq_filterMap_range]
        · show (messages.drop (i + 1)).take opts.context = _
          rw [drop_take_eq_filterMap_range]
        · show ((messages.take i).drop (i - opts.context)).length = _
          simp only [List.length_drop, List.length_take]
          omega
        · show ((messages.drop (i + 1)).take opts.context).length = _
          simp only [List.length_take, List.length_drop]
    · exact absurd h (by simp)

/-- Concrete messages for the end-to-end context example of the spec. -/
def plainMsg (s : String) : SessionRecord :=
  { type := "user"
    message := some { role := "user", content := .str s }
    timestamp := none }

/-- The session of the end-to-end example: only message index 3 matches. -/
def ctxMsgs : List SessionRecord :=
  [plainMsg "m0", plainMsg "m1", plainMsg "m2",
   plainMsg "there is a segfault here", plainMsg "m4"]

/-- The match the example produces at index 3 with context 1. -/
def ctxMatch : SMatch :=
  { timestamp := none
    role := "user"
    text := "there is a segfault here"
    codeBlocks := []
    reasoning := none
    before := [plainMsg "m2"]
    after := [plainMsg "m4"] }

theorem match_context_slices_witness :
    ctxMatch.before = (List.range' (3 - ({} : SearchOpts).context)
        (3 - (3 - ({} : SearchOpts).context))).filterMap (fun j => ctxMsgs[j]?)
      ∧ ctxMatch.after = (List.range' (3 + 1) ({} : SearchOpts).context).filterMap
          (fun j => ctxMsgs[j]?)
      ∧ ctxMatch.before.length = 3 - (3 - ({} : SearchOpts).context)
      ∧ ctxMatch.after.length = min ({} : SearchOpts).context (ctxMsgs.length - (3 + 1)) :=
  match_context_slices {} "segfault" none ctxMsgs 3 ctxMatch (by decide)

/-! ## Claim C7: the code-only filter -/

/-- C7: in code-only mode a message yields a match exactly when its
searchable text contains the query and at least one of its fenced code
blocks independently contains the query, both under the configured case
fold; a text-level hit with no code-block hit is excluded. -/
theorem code_only_needs_code_hit :
    ∀ (opts : SearchOpts) (query : String) (sessionTs : Option Nat)
      (messages : List SessionRecord) (i : Nat) (msg : SessionRecord),
      opts.codeOnly = true → messages[i]? = some msg →
      ((matchAt opts query sessionTs messages i).isSome ↔
        strIncludes (foldCase opts.caseSensitive (extractText (contentOf msg)))
            (foldCase opts.caseSensitive query) = true
          ∧ ∃ b ∈ extractCodeBlocks (contentOf msg),
              strIncludes (foldCase opts.caseSensitive b.code)
                (foldCase opts.caseSensitive query) = true) := by
  intro opts query sessionTs messages i msg hco hmi
  unfold matchAt
  rw [hmi]
  simp only [hco, Bool.true_and]
  split
  · rename_i htext
    split
    · rename_i hempty
      simp only [Option.isSome_none, Bool.false_eq_true, false_iff, not_and]
      intro _
      rw [List.isEmpty_iff, List.filter_eq_nil_iff] at hempty
      push_neg
      intro b hb
      simpa using hempty b hb
    · rename_i hempty
      simp only [Option.isSome_some, true_iff]
      refine ⟨htext, ?_⟩
      rw [List.isEmpty_iff, List.filter_eq_nil_iff] at hempty
      push_neg at hempty
      obtain ⟨b, hb, hbq⟩ := hempty
      exact ⟨b, hb, by simpa using hbq⟩
  · rename_i htext
    simp only [Option.isSome_none, Bool.false_eq_true, false_iff, not_and]
    intro ht
    exact absurd ht htext

/-- The message of the code-only witness: the query occurs in the text and
inside the fenced block. -/
def codeMsg : SessionRecord :=
  { type := "assistant"
    message := some
      { role := "assistant"
        content := .str "run this:\n```js\nfoo bar\n```" }
    timestamp := none }

/-- The options of the code-only witness. -/
def codeOnlyOpts : SearchOpts :=
  { codeOnly := true }

theorem code_only_needs_code_hit_witness :
    (matchAt codeOnlyOpts "foo" none [codeMsg] 0).isSome ↔
      strIncludes (foldCase codeOnlyOpts.caseSensitive (extractText (contentOf codeMsg)))
          (foldCase codeOnlyOpts.caseSensitive "foo") = true
        ∧ ∃ b ∈ extractCodeBlocks (contentOf codeMsg),
            strIncludes (foldCase codeOnlyOpts.caseSensitive b.code)
              (foldCase codeOnlyOpts.caseSensitive "foo") = true :=
  code_only_needs_code_hit codeOnlyOpts "foo" none [codeMsg] 0 codeMsg rfl rfl

/-! ## Claim C10: reasoning matching ignores the case-sensitivity flag -/

theorem matchAt_reasoning_field :
    ∀ (opts : SearchOpts) (query : String) (sessionTs : Option Nat)
      (messages : List SessionRecord) (i : Nat) (m : SMatch),
      matchAt opts query sessionTs messages i = some m →
      ∃ msg, messages[i]? = some msg
        ∧ m.reasoning = (if opts.showReasoning then
            extractReasoningSnippet (contentOf msg) query else none) := by
  intro opts query sessionTs messages i m h
  unfold matchAt at h
  cases hmi : messages[i]? with
  | none => rw [hmi] at h; simp at h
  | some msg =>
    rw [hmi] at h
    simp only at h
    split at h
    · split at h
      · exact absurd h (by simp)
      · rw [Option.some.injEq] at h
        subst h
        exact ⟨msg, rfl, rfl⟩
    · exact absurd h (by simp)

/-- The message of the case-sensitivity demonstration: the text carries the
query with its exact capitalisation, the thinking block only a lowercase
variant. -/
def mixedCaseMsg : SessionRecord :=
  { type := "assistant"
    message := some
      { role := "assistant"
        content := .blocks [.text "Hello there", .thinking "say hello now"] }
    timestamp := none }

/-- The same message with a lowercase-only text. -/
def lowerTextMsg : SessionRecord :=
  { type := "assistant"
    message := some
      { role := "assistant"
        content := .blocks [.text "hello there", .thinking "say hello now"] }
    timestamp := none }

/-- Case-sensitive search with reasoning display on. -/
def csReasonOpts : SearchOpts :=
  { caseSensitive := true, showReasoning := true }

/-- The match the demonstration produces: the snippet is found although the
thinking text carries the query in a different case. -/
def mixedCaseMatch : SMatch :=
  { timestamp := none
    role := "assistant"
    text := "Hello there"
    codeBlocks := []
    reasoning := some
      { lines := ["say hello now"], hitLine := 0
        trimmedTop := false, trimmedBottom := false }
    before := []
    after := [] }

/-- C10: the reasoning snippet of a match never depends on the
case-sensitivity flag, because the extractor lowercases both the query and
each thinking line itself; concretely, under caseSensitive a query that
matches the text exactly still hits a thinking line of different case,
while the text match itself stays case-sensitive. -/
theorem reasoning_matching_ignores_case_flag :
    (∀ (ctx : Nat) (cs cs' co sr : Bool) (query : String) (ts : Option Nat)
        (messages : List SessionRecord) (i : Nat) (m m' : SMatch),
        matchAt ⟨ctx, cs, co, sr⟩ query ts messages i = some m →
        matchAt ⟨ctx, cs', co, sr⟩ query ts messages i = some m' →
        m.reasoning = m'.reasoning)
      ∧ matchAt csReasonOpts "Hello" none [mixedCaseMsg] 0 = some mixedCaseMatch
      ∧ matchAt csReasonOpts "Hello" none [lowerTextMsg] 0 = none := by
  refine ⟨?_, by decide, by decide⟩
  intro ctx cs cs' co sr query ts messages i m m' h h'
  obtain ⟨msg, hmi, hr⟩ := matchAt_reasoning_field _ query ts messages i m h
  obtain ⟨msg', hmi', hr'⟩ := matchAt_reasoning_field _ query ts messages i m' h'
  rw [hmi] at hmi'
  rw [Option.some.injEq] at hmi'
  subst hmi'
  rw [hr, hr']

/-! ## Claim C6: the reasoning window -/

/-- The claim's reading of the block selection: the first thinking-tagged
block, whether or not its text is empty. -/
def firstThinkingTagged : Content → Option ContentBlock
  | .blocks bs => bs.find? (fun b => (blockThinking b).isSome)
  | _ => none

/-- The content of the C6 counterexample: the first thinking-tagged block
has empty text, a later one carries the query. -/
def emptyThenAlpha : Content :=
  .blocks [.thinking "", .thinking "alpha"]

/-- C6 counterexample to the claim as stated: the extractor skips a
thinking-tagged block with empty text, so it returns a snippet taken from
the second thinking block even though no line of the first thinking-tagged
block's text contains the query, where the claim says no snippet is
returned. -/
theorem reasoning_snippet_skips_empty_thinking :
    extractReasoningSnippet emptyThenAlpha "alpha" 3
        = some { lines := ["alpha"], hitLine := 0
                 trimmedTop := false, trimmedBottom := false }
      ∧ firstThinkingTagged emptyThenAlpha = some (.thinking "")
      ∧ (∀ l ∈ strSplitChar "" '\n', lineHit "alpha" l = false) := by
  refine ⟨by decide, by decide, by decide⟩

/-- C6 as amended: the snippet is drawn from the first thinking-tagged
block with non-empty text.  No snippet comes back exactly when no line of
that text contains the query (in particular when no such block exists); a
returned snippet is the window of at most lineContext lines either side of
the first hit line, clamped to the text, with the in-window hit index and
the two truncation flags. -/
theorem reasoning_snippet_window :
    ∀ (content : Content) (query : String) (n : Nat),
      (extractReasoningSnippet content query n = none ↔
        ∀ t, firstLiveThinking content = some t →
          ∀ l ∈ strSplitChar t '\n', lineHit query l = false)
        ∧ ∀ s, extractReasoningSnippet content query n = some s →
            ∃ t hit, firstLiveThinking content = some t
              ∧ (∃ hh : hit < (strSplitChar t '\n').length,
                  lineHit query ((strSplitChar t '\n').get ⟨hit, hh⟩) = true)
              ∧ (∀ j, ∀ hj : j < (strSplitChar t '\n').length, j < hit →
                  lineHit query ((strSplitChar t '\n').get ⟨j, hj⟩) = false)
              ∧ s.lines = (List.range' (hit - n)
                  (min ((strSplitChar t '\n').length - 1) (hit + n) + 1 - (hit - n))).filterMap
                    (fun j => (strSplitChar t '\n')[j]?)
              ∧ s.hitLine = hit - (hit - n)
              ∧ s.trimmedTop = decide (n < hit)
              ∧ s.trimmedBottom = decide (hit + n < (strSplitChar t '\n').length - 1)
              ∧ s.lines.length ≤ 2 * n + 1
              ∧ s.lines[s.hitLine]? = (strSplitChar t '\n')[hit]? := by
  intro content query n
  constructor
  · unfold extractReasoningSnippet
    cases hft : firstLiveThinking content with
    | none =>
      simp only [true_iff]
      exact fun t ht => absurd ht (by simp)
    | some t =>
      dsimp only
      cases hidx : (strSplitChar t '\n').findIdx? (lineHit query) with
      | none =>
        simp only [true_iff]
        intro t' ht'
        cases ht'
        exact fun l hl => List.findIdx?_eq_none_iff.mp hidx l hl
      | some hit =>
        obtain ⟨hh, hhit, -⟩ := List.findIdx?_eq_some_iff_getElem.mp hidx
        apply iff_of_false
        · simp
        · intro hall
          have h2 := hall t rfl ((strSplitChar t '\n').get ⟨hit, hh⟩)
            (List.get_mem _ _ hh)
          rw [show (strSplitChar t '\n').get ⟨hit, hh⟩
              = (strSplitChar t '\n')[hit] from rfl] at h2
          rw [h2] at hhit
          exact absurd hhit (by simp)
  · intro s hs
    unfold extractReasoningSnippet at hs
    cases hft : firstLiveThinking content with
    | none => rw [hft] at hs; simp at hs
    | some t =>
      rw [hft] at hs
      dsimp only at hs
      cases hidx : (strSplitChar t '\n').findIdx? (lineHit query) with
      | none => rw [hidx] at hs; simp at hs
      | some hit =>
        rw [hidx] at hs
        simp only [Option.some.injEq] at hs
        subst hs
        obtain ⟨hh, hhit, hleast⟩ := List.findIdx?_eq_some_iff_getElem.mp hidx
        refine ⟨t, hit, rfl, ⟨hh, by simpa using hhit⟩, ?_, ?_, rfl, ?_, ?_, ?_, ?_⟩
        · intro j hj hjh
          have h3 := hleast j hjh
          simpa using h3
        · exact drop_take_eq_filterMap_range _ _ _
        · show decide (0 < hit - n) = decide (n < hit)
          rw [decide_eq_decide]
          omega
        · show decide (min ((strSplitChar t '\n').length - 1) (hit + n)
              < (strSplitChar t '\n').length - 1)
            = decide (hit + n < (strSplitChar t '\n').length - 1)
          rw [decide_eq_decide]
          omega
        · show ((List.drop (hit - n) (strSplitChar t '\n')).take
              (min ((strSplitChar t '\n').length - 1) (hit + n) + 1 - (hit - n))).length
            ≤ 2 * n + 1
          simp only [List.length_take, List.length_drop]
          omega
        · show ((List.drop (hit - n) (strSplitChar t '\n')).take
              (min ((strSplitChar t '\n').length - 1) (hit + n) + 1 - (hit - n)))[hit - (hit - n)]?
            = (strSplitChar t '\n')[hit]?
          rw [List.getElem?_take, if_pos (by omega), List.getElem?_drop]
          congr 1
          omega

/-! ## Claim C8: order, language default and trailing trim of code blocks -/

theorem scanPosFuel_ge :
    ∀ fuel p cs e, e ∈ scanPosFuel fuel p cs → p ≤ e.1 := by
  intro fuel
  induction fuel with
  | zero => intro p cs e he; simp [scanPosFuel] at he
  | succ fuel ih =>
    intro p cs e he
    simp only [scanPosFuel] at he
    cases htm : tryMatchAt cs with
    | some tpl =>
      obtain ⟨tag, body, after⟩ := tpl
      rw [htm] at he
      rw [List.mem_cons] at he
      cases he with
      | inl he => subst he; exact Nat.le_refl p
      | inr he =>
        have := ih (p + (cs.length - after.length)) after e he
        omega
    | none =>
      rw [htm] at he
      cases cs with
      | nil => simp at he
      | cons c rest =>
        have := ih (p + 1) rest e he
        omega

theorem scanPosFuel_pairwise :
    ∀ fuel p cs, cs.length ≤ fuel →
      List.Pairwise (fun a b => a.1 < b.1) (scanPosFuel fuel p cs) := by
  intro fuel
  induction fuel with
  | zero => intro p cs h; simp [scanPosFuel]
  | succ fuel ih =>
    intro p cs h
    simp only [scanPosFuel]
    cases htm : tryMatchAt cs with
    | some tpl =>
      obtain ⟨tag, body, after⟩ := tpl
      have hlen := (tryMatchAt_spec htm).1
      refine List.Pairwise.cons ?_ (ih _ after (by omega))
      intro e he
      have := scanPosFuel_ge fuel (p + (cs.length - after.length)) after e he
      omega
    | none =>
      cases cs with
      | nil => simp
      | cons c rest =>
        show List.Pairwise (fun a b => a.1 < b.1) (scanPosFuel fuel (p + 1) rest)
        exact ih (p + 1) rest (by simpa using h)

theorem scanFuel_eq_posFuel :
    ∀ fuel p cs,
      scanFuel fuel cs = (scanPosFuel fuel p cs).map (fun e => mkBlock e.2.1 e.2.2) := by
  intro fuel
  induction fuel with
  | zero => intro p cs; rfl
  | succ fuel ih =>
    intro p cs
    simp only [scanFuel, scanPosFuel]
    cases htm : tryMatchAt cs with
    | some tpl =>
      obtain ⟨tag, body, after⟩ := tpl
      simp only [List.map_cons]
      rw [ih (p + (cs.length - after.length)) after]
    | none =>
      cases cs with
      | nil => rfl
      | cons c rest => exact ih (p + 1) rest

theorem suffix_drop_eq {α : Type} {a cs : List α} (h : a <:+ cs) :
    cs.drop (cs.length - a.length) = a := by
  obtain ⟨t, rfl⟩ := h
  rw [List.length_append, Nat.add_sub_cancel, List.drop_left]

theorem scanPosFuel_fences :
    ∀ fuel p cs, ∀ e ∈ scanPosFuel fuel p cs,
      ∃ a, tryMatchAt (cs.drop (e.1 - p)) = some (e.2.1, e.2.2, a) := by
  intro fuel
  induction fuel with
  | zero => intro p cs e he; simp [scanPosFuel] at he
  | succ fuel ih =>
    intro p cs e he
    simp only [scanPosFuel] at he
    cases htm : tryMatchAt cs with
    | some tpl =>
      obtain ⟨tag, body, after⟩ := tpl
      rw [htm] at he
      rw [List.mem_cons] at he
      cases he with
      | inl he =>
        subst he
        exact ⟨after, by simpa using htm⟩
      | inr he =>
        obtain ⟨a, ha⟩ := ih (p + (cs.length - after.length)) after e he
        have hge := scanPosFuel_ge fuel (p + (cs.length - after.length)) after e he
        have hdrop : cs.drop (cs.length - after.length) = after :=
          suffix_drop_eq (tryMatchAt_spec htm).2
        refine ⟨a, ?_⟩
        have hd2 : List.drop (e.1 - p) cs
            = List.drop (e.1 - (p + (cs.length - after.length)))
                (List.drop (cs.length - after.length) cs) := by
          rw [List.drop_drop]
          congr 1
          omega
        rw [hdrop] at hd2
        rw [hd2]
        exact ha
    | none =>
      rw [htm] at he
      cases cs with
      | nil => simp at he
      | cons c rest =>
        obtain ⟨a, ha⟩ := ih (p + 1) rest e he
        have hge := scanPosFuel_ge fuel (p + 1) rest e he
        refine ⟨a, ?_⟩
        rw [show e.1 - p = (e.1 - (p + 1)) + 1 from by omega]
        rw [List.drop_succ_cons]
        exact ha

theorem head_dropWhile_false {α : Type} (q : α → Bool) :
    ∀ (l : List α) (x : α), (l.dropWhile q).head? = some x → q x = false := by
  intro l
  induction l with
  | nil => intro x hx; simp [List.dropWhile] at hx
  | cons a as ih =>
    intro x hx
    rw [List.dropWhile_cons] at hx
    by_cases hq : q a = true
    · rw [if_pos hq] at hx
      exact ih x hx
    · rw [if_neg hq] at hx
      rw [List.head?_cons, Option.some.injEq] at hx
      subst hx
      exact Bool.not_eq_true _ ▸ hq

theorem strTrimEnd_no_trailing :
    ∀ (s : String) (ch : Char),
      (strTrimEnd s).data.getLast? = some ch → ch.isWhitespace = false := by
  intro s ch h
  rw [strTrimEnd] at h
  rw [show (String.mk ((s.data.reverse.dropWhile Char.isWhitespace).reverse)).data
      = (s.data.reverse.dropWhile Char.isWhitespace).reverse from rfl,
    List.getLast?_reverse] at h
  exact head_dropWhile_false _ _ ch h

theorem scanFuel_blocks_shape :
    ∀ fuel cs b, b ∈ scanFuel fuel cs → ∃ tag body, b = mkBlock tag body := by
  intro fuel
  induction fuel with
  | zero => intro cs b hb; simp [scanFuel] at hb
  | succ fuel ih =>
    intro cs b hb
    simp only [scanFuel] at hb
    cases htm : tryMatchAt cs with
    | some tpl =>
      obtain ⟨tag, body, after⟩ := tpl
      rw [htm] at hb
      rw [List.mem_cons] at hb
      cases hb with
      | inl hb => exact ⟨tag, body, hb⟩
      | inr hb => exact ih after b hb
    | none =>
      rw [htm] at hb
      cases cs with
      | nil => simp at hb
      | cons c rest => exact ih rest b hb

/-- C8: the extracted blocks are, in order, the finalisations of the fence
matches the positioned scan finds at strictly increasing positions of the
searchable text, a fence with an empty tag is finalised with lang text, and
no extracted block's code ends in whitespace (in particular no trailing
newline), nor is any lang empty. -/
theorem code_blocks_ordered_defaulted_trimmed :
    (∀ content : Content,
        extractCodeBlocks content
          = (scanCodeBlocksPos 0 (extractText content).data).map
              (fun e => mkBlock e.2.1 e.2.2))
      ∧ (∀ content : Content,
          List.Pairwise (fun a b => a.1 < b.1)
            (scanCodeBlocksPos 0 (extractText content).data))
      ∧ (∀ (content : Content) e, e ∈ scanCodeBlocksPos 0 (extractText content).data →
          ∃ a, tryMatchAt ((extractText content).data.drop e.1) = some (e.2.1, e.2.2, a))
      ∧ (∀ tag body : List Char,
          (mkBlock tag body).lang = if tag = [] then "text" else String.mk tag)
      ∧ (∀ (content : Content) (b : CodeBlock), b ∈ extractCodeBlocks content →
          b.lang ≠ ""
            ∧ ∀ ch : Char, b.code.data.getLast? = some ch → ch.isWhitespace = false) := by
  refine ⟨?_, ?_, ?_, fun tag body => rfl, ?_⟩
  · intro content
    exact scanFuel_eq_posFuel _ 0 _
  · intro content
    exact scanPosFuel_pairwise _ 0 _ (Nat.le_refl _)
  · intro content e he
    have := scanPosFuel_fences _ 0 _ e he
    simpa using this
  · intro content b hb
    obtain ⟨tag, body, hb'⟩ := scanFuel_blocks_shape _ _ b hb
    subst hb'
    constructor
    · show (if tag = [] then "text" else String.mk tag) ≠ ""
      by_cases ht : tag = []
      · rw [if_pos ht]
        decide
      · rw [if_neg ht]
        intro hc
        exact ht (congrArg String.data hc)
    · intro ch hch
      exact strTrimEnd_no_trailing (String.mk body) ch hch

/-! ## Claim C1: the depth-first shortest-grouping-first probe -/

theorem groupingPath_cons (base : List String) (seg : List String)
    (g : List (List String)) :
    groupingPath base (seg :: g) = groupingPath (base ++ [joinHyphen seg]) g := by
  simp [groupingPath]

theorem findFrom_eq_spec (fs : List String → Bool) :
    ∀ n parts, parts.length ≤ n → ∀ base tried,
      findExistingPathFrom fs base parts tried
        = ((allGroupingsFrom parts tried).find? (groupingViable fs base)).map
            (groupingPath base) := by
  intro n
  induction n with
  | zero =>
    intro parts hp base tried
    have hnil : parts = [] := List.eq_nil_of_length_eq_zero (Nat.le_zero.mp hp)
    subst hnil
    rw [findExistingPathFrom.eq_def, allGroupingsFrom.eq_def]
    simp
  | succ n ih =>
    intro parts hp
    have hfind_any : ∀ (cand rest : List String), rest.length ≤ n →
        findExistingPath fs cand rest
          = ((allGroupings rest).find? (groupingViable fs cand)).map
              (groupingPath cand) := by
      intro cand rest hlen
      cases rest with
      | nil =>
        rw [findExistingPath.eq_def,
          show allGroupings ([] : List String) = [[]] from by rw [allGroupings.eq_def]]
        simp [groupingViable, groupingPath]
      | cons r rs =>
        rw [findExistingPath.eq_def,
          show allGroupings (r :: rs) = allGroupingsFrom (r :: rs) 0 from by
            rw [allGroupings.eq_def]]
        exact ih (r :: rs) hlen cand 0
    suffices hsuf : ∀ m tried, parts.length ≤ tried + m → ∀ base,
        findExistingPathFrom fs base parts tried
          = ((allGroupingsFrom parts tried).find? (groupingViable fs base)).map
              (groupingPath base) by
      intro base tried
      exact hsuf parts.length tried (by omega) base
    intro m
    induction m with
    | zero =>
      intro tried hm base
      rw [findExistingPathFrom.eq_def, allGroupingsFrom.eq_def]
      simp only [dif_neg (show ¬tried < parts.length by omega)]
      simp
    | succ m ihm =>
      intro tried hm base
      by_cases htr : tried < parts.length
      · rw [findExistingPathFrom.eq_def, allGroupingsFrom.eq_def]
        simp only [dif_pos htr]
        rw [List.find?_append, List.find?_map]
        have hfun : (groupingViable fs base ∘ fun g => parts.take (tried + 1) :: g)
            = fun g => fs (base ++ [joinHyphen (parts.take (tried + 1))])
                && groupingViable fs (base ++ [joinHyphen (parts.take (tried + 1))]) g :=
          funext fun g => rfl
        rw [hfun]
        by_cases hfs : fs (base ++ [joinHyphen (parts.take (tried + 1))]) = true
        · rw [if_pos hfs]
          simp only [hfs, Bool.true_and]
          rw [hfind_any (base ++ [joinHyphen (parts.take (tried + 1))])
            (parts.drop (tried + 1)) (by simp only [List.length_drop]; omega)]
          cases hfind : (allGroupings (parts.drop (tried + 1))).find?
              (groupingViable fs (base ++ [joinHyphen (parts.take (tried + 1))])) with
          | some g =>
            show some (groupingPath (base ++ [joinHyphen (parts.take (tried + 1))]) g)
              = Option.map (groupingPath base)
                  ((some (parts.take (tried + 1) :: g)).or
                    ((allGroupingsFrom parts (tried + 1)).find? (groupingViable fs base)))
            show some (groupingPath (base ++ [joinHyphen (parts.take (tried + 1))]) g)
              = some (groupingPath base (parts.take (tried + 1) :: g))
            rw [groupingPath_cons]
          | none =>
            show findExistingPathFrom fs base parts (tried + 1)
              = Option.map (groupingPath base)
                  ((allGroupingsFrom parts (tried + 1)).find? (groupingViable fs base))
            exact ihm (tried + 1) (by omega) base
        · rw [if_neg hfs]
          have hb : fs (base ++ [joinHyphen (parts.take (tried + 1))]) = false := by
            revert hfs
            cases fs (base ++ [joinHyphen (parts.take (tried + 1))]) <;> simp
          have hfalse : (fun g => fs (base ++ [joinHyphen (parts.take (tried + 1))])
              && groupingViable fs (base ++ [joinHyphen (parts.take (tried + 1))]) g)
              = fun _ => false :=
            funext fun g => by rw [hb, Bool.false_and]
          rw [hfalse, List.find?_eq_none.mpr (fun x _ => by simp)]
          show findExistingPathFrom fs base parts (tried + 1)
            = Option.map (groupingPath base)
                ((allGroupingsFrom parts (tried + 1)).find? (groupingViable fs base))
          exact ihm (tried + 1) (by omega) base
      · rw [findExistingPathFrom.eq_def, allGroupingsFrom.eq_def]
        simp only [dif_neg htr]
        simp

theorem findPath_eq_spec (fs : List String → Bool) :
    ∀ base parts, findExistingPath fs base parts = findExistingPathSpec fs base parts := by
  intro base parts
  cases parts with
  | nil =>
    rw [findExistingPath.eq_def, findExistingPathSpec,
      show allGroupings ([] : List String) = [[]] from by rw [allGroupings.eq_def]]
    simp [groupingViable, groupingPath]
  | cons p ps =>
    rw [findExistingPath.eq_def, findExistingPathSpec,
      show allGroupings (p :: ps) = allGroupingsFrom (p :: ps) 0 from by
        rw [allGroupings.eq_def]]
    exact findFrom_eq_spec fs (p :: ps).length (p :: ps) (Nat.le_refl _) base 0

/-- The filesystem of the C1 example: under home only Projects and
Projects/my-app exist; in particular the directory Projects-my-app does
not. -/
def demoFS : List String → Bool := fun p =>
  decide (p = ["home", "Projects"]) || decide (p = ["home", "Projects", "my-app"])

/-- C1: the probe equals its declarative reading, the first viable grouping
of the depth-first shortest-grouping-first enumeration, turned into a path;
it returns none exactly when no grouping is viable; the enumeration for two
tokens is shortest-first; and on the example filesystem the probe resolves
the two-segment split, not the single hyphenated segment. -/
theorem probe_is_shortest_first_dfs :
    (∀ (fs : List String → Bool) (base parts : List String),
        findExistingPath fs base parts = findExistingPathSpec fs base parts)
      ∧ (∀ (fs : List String → Bool) (base parts : List String),
          findExistingPath fs base parts = none ↔
            ∀ g ∈ allGroupings parts, groupingViable fs base g = false)
      ∧ allGroupings ["Projects", "my-app"]
          = [[["Projects"], ["my-app"]], [["Projects", "my-app"]]]
      ∧ findExistingPath demoFS ["home"] ["Projects", "my-app"]
          = some ["home", "Projects", "my-app"]
      ∧ demoFS ["home", "Projects-my-app"] = false := by
  refine ⟨findPath_eq_spec, ?_, ?_, ?_, by decide⟩
  · intro fs base parts
    rw [findPath_eq_spec fs base parts, findExistingPathSpec, Option.map_eq_none',
      List.find?_eq_none]
    simp
  · simp [allGroupings, allGroupingsFrom]
  · simp [findExistingPath, findExistingPathFrom]
    decide

/-- C2 counterexample to the claim as stated: a slug that does not carry
the home prefix is returned with its leading separator, not with the
separator removed as the claim says. -/
theorem projectName_keeps_leading_separator :
    projectName "/Users/alice" "/tmp/proj" "/tmp/proj/-opt-data-app/abc.jsonl"
        = "-opt-data-app"
      ∧ strStartsWith "-opt-data-app" (homeSlugPre "/Users/alice") = false
      ∧ projectName "/Users/alice" "/tmp/proj" "/tmp/proj/-opt-data-app/abc.jsonl"
        ≠ strDrop "-opt-data-app" 1 := by
  refine ⟨by decide, by decide, by decide⟩

end ClaudeSearch
